import Mathlib

/-
  Verification of the rusterize software rasterizer (src/texture.rs,
  src/renderer.rs) against its natural-language specification.

  Embedding conventions:
  * f64 (`Coord`) arithmetic is modelled as exact rational arithmetic (ℚ);
    the only infinite depth values that actually flow through the program
    (`f64::NEG_INFINITY` from `clear`/`new`, `f64::INFINITY` from
    `draw_line`) are modelled by a dedicated `Depth` type.
  * `PixCoord` is modelled as ℤ, `Dimension` as ℕ.  The `types`, `pixel`
    and `utils` modules of the repository are not under src/, so the
    Point/Transform algebra, the canonical colors and `clamp` are modelled
    from the spec (each such definition says so in its doc comment).
  * Rust `as` casts from f64 to a signed integer type truncate toward
    zero; this is `truncQ` below.
  * The grids are Lean lists; `List.set` leaves the list unchanged when
    the index is out of range, whereas the source's Vec indexing aborts
    there.  `set_pixel_panics` and `lineLoopAborts` model that abort
    condition, and the claims below either work at in-range indices or
    restrict themselves to abort-free runs, on which the embedding and
    the source agree.
-/

namespace Rusterize

attribute [local semireducible] Rat.add Rat.mul Rat.sub Rat.inv

/-- An RGB color triple (the repository's `Pixel`, an `(u8, u8, u8)`). -/
abbrev Pixel := ℕ × ℕ × ℕ

/-- Modelled from the spec: the canonical white color supplied by the
missing `pixel` module (`pixel::WHITE`). -/
def WHITE : Pixel := (255, 255, 255)

/-- Modelled from the spec: the background color supplied by the missing
`pixel` module (`pixel::BLACK`). -/
def BLACK : Pixel := (0, 0, 0)

/-- A depth cell value: the finite f64 values are modelled as ℚ, and the
two infinities that the program actually stores are explicit. -/
inductive Depth where
  | negInf : Depth
  | posInf : Depth
  | fin : ℚ → Depth
deriving DecidableEq

/-- Modelled from the spec: a 3-D point with floating-point (here ℚ)
components, from the missing `types` module. -/
structure Point where
  x : ℚ
  y : ℚ
  z : ℚ
deriving DecidableEq

instance : Add Point := ⟨fun p q => ⟨p.x + q.x, p.y + q.y, p.z + q.z⟩⟩

instance : Sub Point := ⟨fun p q => ⟨p.x - q.x, p.y - q.y, p.z - q.z⟩⟩

instance : HMul Point ℚ Point := ⟨fun p s => ⟨p.x * s, p.y * s, p.z * s⟩⟩

/-- Modelled from the spec: the dot product of two points. -/
def dotP (p q : Point) : ℚ := p.x * q.x + p.y * q.y + p.z * q.z

/-- Modelled from the spec: the cross product, used for a triangle's face
normal. -/
def crossP (p q : Point) : Point :=
  ⟨p.y * q.z - p.z * q.y, p.z * q.x - p.x * q.z, p.x * q.y - p.y * q.x⟩

/-- Modelled from the spec: a composable 4-row matrix of floating-point
coefficients (the missing `types` module's `Transform`), row-vector
convention. -/
def Transform := Fin 4 → Fin 4 → ℚ

/-- Modelled from the spec: the identity transform, neutral under
composition. -/
def Transform.identity : Transform := fun i j => if i = j then 1 else 0

/-- Modelled from the spec: point-by-transform application in row-vector
convention (`p' = p · T`), including the perspective divide by the fourth
component. -/
def applyT (p : Point) (T : Transform) : Point :=
  let rx := p.x * T 0 0 + p.y * T 1 0 + p.z * T 2 0 + T 3 0
  let ry := p.x * T 0 1 + p.y * T 1 1 + p.z * T 2 1 + T 3 1
  let rz := p.x * T 0 2 + p.y * T 1 2 + p.z * T 2 2 + T 3 2
  let rw := p.x * T 0 3 + p.y * T 1 3 + p.z * T 2 3 + T 3 3
  ⟨rx / rw, ry / rw, rz / rw⟩

/-- A triangle: three vertices (`types` module's `Triangle`). -/
structure Triangle where
  p1 : Point
  p2 : Point
  p3 : Point
deriving DecidableEq

/-- Modelled from the spec: the face normal of a triangle (the missing
`Triangle::normal`), as the cross product of two edge vectors. -/
def Triangle.normal (t : Triangle) : Point := crossP (t.p2 - t.p1) (t.p3 - t.p1)

/-- Modelled from the spec: `t * transform` transforms all three
vertices by the current transform. -/
def triApply (t : Triangle) (T : Transform) : Triangle :=
  ⟨applyT t.p1 T, applyT t.p2 T, applyT t.p3 T⟩

/-- Rust `as` cast from f64 to a signed integer: truncation toward zero.
On ℚ this is `num / den` with T-division. -/
def truncQ (q : ℚ) : ℤ := Int.tdiv q.num q.den

/-- The frame buffer (`Texture` in src/texture.rs): width, height, a
color grid and a depth grid, row-major index `y*w + x`. -/
structure Texture where
  w : ℕ
  h : ℕ
  pixels : List Pixel
  depths : List Depth
deriving DecidableEq

/-- `Texture::new` (src/texture.rs:19): both grids sized `w*h`, color
black, depth negative infinity. -/
def Texture.new (w h : ℕ) : Texture :=
  ⟨w, h, List.replicate (w * h) BLACK, List.replicate (w * h) Depth.negInf⟩

/-- `Texture::set_pixel_nocheck` (src/texture.rs:41): unconditionally
overwrite both grids at index `y*w + x` (the nearer-wins depth comparison
in the source is commented out).  `List.set` leaves a grid unchanged when
the index is outside it; there the source's `Vec` indexing
(src/texture.rs:50-51) aborts the program instead.  That abort condition
is modelled separately by `set_pixel_panics`, and claims about complete
loop runs restrict themselves to abort-free executions, on which this
definition agrees with the source exactly. -/
def set_pixel_nocheck (tex : Texture) (x y : ℤ) (depth : Depth) (color : Pixel) :
    Texture :=
  let index := (y * tex.w + x).toNat
  { tex with
    depths := tex.depths.set index depth
    pixels := tex.pixels.set index color }

/-- `Texture::set_pixel` (src/texture.rs:29): the guards are exactly the
source's `x < 0 || y < 0` and `self.w < x || self.h < y`. -/
def set_pixel (tex : Texture) (x y : ℤ) (depth : Depth) (color : Pixel) :
    Texture :=
  if x < 0 ∨ y < 0 then tex
  else if (tex.w : ℤ) < x ∨ (tex.h : ℤ) < y then tex
  else set_pixel_nocheck tex x y depth color

/-- Modelled from the spec: `clamp` from the missing `utils` module,
clamping into a closed interval. -/
def clamp (x lo hi : ℤ) : ℤ := max lo (min x hi)

/-- The body of `Texture::set_row`'s `for x in start .. end + 1` loop
(src/texture.rs:70): the interpolated depth `d` is computed and then
shadowed by `let d = d1`, exactly as in the source. -/
def set_row_loop (x1 x2 : ℤ) (d1 d2 : ℚ) (color : Pixel) (y : ℤ) :
    ℕ → ℤ → Texture → Texture
  | 0, _, tex => tex
  | n + 1, x, tex =>
    let t : ℚ := ((x - x1 : ℤ) : ℚ) / ((x2 - x1 : ℤ) : ℚ)
    let d := d1 * (1 - t) + d2 * t
    let d := d1
    set_row_loop x1 x2 d1 d2 color y n (x + 1)
      (set_pixel_nocheck tex x y (Depth.fin d) color)

/-- `Texture::set_row` (src/texture.rs:54).  The `as Dimension`
comparisons on the guards are modelled with the spec's reading (§4.2:
no-op when the row is outside `[0,h)` or the span entirely outside
`[0,w)`), since `Dimension` itself is not under src/. -/
def set_row (tex : Texture) (x1 x2 y : ℤ) (d1 d2 : ℚ) (color : Pixel) :
    Texture :=
  if y < 0 ∨ (tex.h : ℤ) ≤ y then tex
  else if x2 < 0 ∨ (tex.w : ℤ) ≤ x1 then tex
  else
    let start := clamp x1 0 ((tex.w : ℤ) - 1)
    let stop := clamp x2 0 ((tex.w : ℤ) - 1)
    set_row_loop x1 x2 d1 d2 color y (stop + 1 - start).toNat start tex

/-- `Texture::clear` (src/texture.rs:84): every color cell to black and
every depth cell to negative infinity. -/
def Texture.clear (tex : Texture) : Texture :=
  { tex with
    pixels := tex.pixels.map fun _ => BLACK
    depths := tex.depths.map fun _ => Depth.negInf }

/-- The color grid entry at `(x, y)` (row-major `y*w + x`), defaulting to
black outside the list. -/
def colorAt (tex : Texture) (x y : ℤ) : Pixel :=
  tex.pixels.getD (y * tex.w + x).toNat BLACK

/-- The depth grid entry at `(x, y)`, defaulting to negative infinity. -/
def depthAt (tex : Texture) (x y : ℤ) : Depth :=
  tex.depths.getD (y * tex.w + x).toNat Depth.negInf

/-- The integer quantities `Renderer::draw_line` (src/renderer.rs:66-82)
computes before entering its stepping loop: the truncated endpoint pixel
coordinates, the absolute deltas and the step directions. -/
structure LineArgs where
  p1x : ℤ
  p1y : ℤ
  p2x : ℤ
  p2y : ℤ
  adx : ℤ
  ady : ℤ
  xStep : ℤ
  yStep : ℤ
deriving DecidableEq

/-- The prologue of `Renderer::draw_line` (src/renderer.rs:67-82):
transform both endpoints, truncate to pixel coordinates, take signed
deltas, absolute values and the ±1 steps. -/
def lineArgs (T : Transform) (q1 q2 : Point) : LineArgs :=
  let p1 := applyT q1 T
  let p2 := applyT q2 T
  let p1x := truncQ p1.x
  let p1y := truncQ p1.y
  let p2x := truncQ p2.x
  let p2y := truncQ p2.y
  let dx := truncQ p2.x - truncQ p1.x
  let dy := truncQ p2.y - truncQ p1.y
  let adx := if 0 ≤ dx then dx else -dx
  let ady := if 0 ≤ dy then dy else -dy
  ⟨p1x, p1y, p2x, p2y, adx, ady,
    if p1x < p2x then 1 else -1,
    if p1y < p2y then 1 else -1⟩

/-- The stepping loop of `Renderer::draw_line` (src/renderer.rs:84-114),
with an explicit fuel argument; `none` means the fuel ran out before the
loop's own `break`.  Each iteration advances the minor coordinate when
twice the error exceeds the dominant delta, paints the pixel with depth
`f64::INFINITY`, and breaks when the dominant coordinate equals the
destination's.  The returned pair also exposes the final `(x, y)`. -/
def lineLoop (adx ady xStep yStep p2x p2y : ℤ) (c : Pixel) :
    ℕ → ℤ → ℤ → ℤ → Texture → Option (Texture × ℤ × ℤ)
  | 0, _, _, _, _ => none
  | fuel + 1, x, y, e, tex =>
    if ady ≤ adx then
      let p := if adx < 2 * e then (y + yStep, e - adx) else (y, e)
      let y := p.1
      let e := p.2 + ady
      let tex := set_pixel tex x y Depth.posInf c
      if x = p2x then some (tex, x, y)
      else lineLoop adx ady xStep yStep p2x p2y c fuel (x + xStep) y e tex
    else
      let p := if ady < 2 * e then (x + xStep, e - ady) else (x, e)
      let x := p.1
      let e := p.2 + adx
      let tex := set_pixel tex x y Depth.posInf c
      if y = p2y then some (tex, x, y)
      else lineLoop adx ady xStep yStep p2x p2y c fuel x (y + yStep) e tex

/-- The fuel that suffices for `lineLoop`: the loop takes exactly
`max adx ady + 1` iterations (proved below). -/
def lineFuel (a : LineArgs) : ℕ := (max a.adx a.ady).toNat + 1

/-- `Renderer::draw_line` (src/renderer.rs:66-115), with the renderer's
current transform and color as explicit arguments. -/
def draw_line (T : Transform) (c : Pixel) (tex : Texture) (q1 q2 : Point) :
    Texture :=
  match lineLoop (lineArgs T q1 q2).adx (lineArgs T q1 q2).ady
      (lineArgs T q1 q2).xStep (lineArgs T q1 q2).yStep
      (lineArgs T q1 q2).p2x (lineArgs T q1 q2).p2y c
      (lineFuel (lineArgs T q1 q2)) (lineArgs T q1 q2).p1x
      (lineArgs T q1 q2).p1y 0 tex with
  | some (t, _, _) => t
  | none => tex

/-- The condition under which the source's `set_pixel` aborts: its guards
(src/texture.rs:36-37) admit the write, but the flat index `y*w + x`
falls outside a grid, where the `Vec` indexing of `set_pixel_nocheck`
(src/texture.rs:50-51) panics instead of writing.  Reachable through the
off-by-one guard of C1 (`x = w` or `y = h`). -/
def set_pixel_panics (tex : Texture) (x y : ℤ) : Prop :=
  ¬ (x < 0 ∨ y < 0) ∧ ¬ ((tex.w : ℤ) < x ∨ (tex.h : ℤ) < y) ∧
    (tex.depths.length ≤ (y * tex.w + x).toNat ∨
      tex.pixels.length ≤ (y * tex.w + x).toNat)

instance (tex : Texture) (x y : ℤ) : Decidable (set_pixel_panics tex x y) := by
  unfold set_pixel_panics
  infer_instance

/-- Whether the stepping loop of `draw_line`, as run by the source,
aborts: this mirrors `lineLoop` iteration for iteration but returns
`true` as soon as an iteration's pixel write satisfies
`set_pixel_panics`, where the source's run stops in a panic rather than
reaching the loop's own `break`. -/
def lineLoopAborts (adx ady xStep yStep p2x p2y : ℤ) (c : Pixel) :
    ℕ → ℤ → ℤ → ℤ → Texture → Bool
  | 0, _, _, _, _ => false
  | fuel + 1, x, y, e, tex =>
    if ady ≤ adx then
      let p := if adx < 2 * e then (y + yStep, e - adx) else (y, e)
      let y := p.1
      let e := p.2 + ady
      if set_pixel_panics tex x y then true
      else
        let tex := set_pixel tex x y Depth.posInf c
        if x = p2x then false
        else lineLoopAborts adx ady xStep yStep p2x p2y c fuel (x + xStep)
          y e tex
    else
      let p := if ady < 2 * e then (x + xStep, e - ady) else (x, e)
      let x := p.1
      let e := p.2 + adx
      if set_pixel_panics tex x y then true
      else
        let tex := set_pixel tex x y Depth.posInf c
        if y = p2y then false
        else lineLoopAborts adx ady xStep yStep p2x p2y c fuel x (y + yStep)
          e tex

/-- One recorded `set_row` call: the arguments the triangle fill routines
pass to `Texture::set_row`. -/
structure RowCall where
  x1 : ℤ
  x2 : ℤ
  y : ℤ
  d1 : ℚ
  d2 : ℚ
  color : Pixel
deriving DecidableEq

/-- Replay one recorded call against the frame buffer. -/
def applyRowCall (tex : Texture) (rc : RowCall) : Texture :=
  set_row tex rc.x1 rc.x2 rc.y rc.d1 rc.d2 rc.color

/-- The scanline loop of `Renderer::fill_bottom_flat_triangle`
(src/renderer.rs:182-197), recording the `set_row` calls it issues. -/
def bottomFlatLoop (topY leftY topZ leftZ rightZ invslope1 invslope2 : ℚ)
    (c : Pixel) : ℕ → ℤ → ℚ → ℚ → List RowCall
  | 0, _, _, _ => []
  | n + 1, y, curx1, curx2 =>
    let t : ℚ := ((y : ℚ) - topY) / (leftY - topY)
    let z_left := leftZ * t + topZ * (1 - t)
    let z_right := rightZ * t + topZ * (1 - t)
    ⟨truncQ curx1, truncQ curx2, y, -z_left, -z_right, c⟩ ::
      bottomFlatLoop topY leftY topZ leftZ rightZ invslope1 invslope2 c n
        (y + 1) (curx1 + invslope1) (curx2 + invslope2)

/-- The `set_row` calls `Renderer::fill_bottom_flat_triangle`
(src/renderer.rs:174-209) issues: the scanlines from the truncated apex y
up to (excluding) the truncated base y, followed by the extra base row
written after the loop (src/renderer.rs:199-208). -/
def bottomFlatCalls (c : Pixel) (t : Triangle) : List RowCall :=
  let top := t.p1
  let lr := if t.p3.x < t.p2.x then (t.p3, t.p2) else (t.p2, t.p3)
  let left := lr.1
  let right := lr.2
  let invslope1 := (left.x - top.x) / (left.y - top.y)
  let invslope2 := (right.x - top.x) / (right.y - top.y)
  let count := (truncQ left.y - truncQ top.y).toNat
  let t_right := (left.y - top.y) / (right.y - top.y)
  let z_right := right.z * t_right + top.z * (1 - t_right)
  bottomFlatLoop top.y left.y top.z left.z right.z invslope1 invslope2 c
      count (truncQ top.y) top.x top.x ++
    [⟨truncQ left.x, truncQ right.x, truncQ left.y, -left.z, -z_right, c⟩]

/-- `Renderer::fill_bottom_flat_triangle` as a frame-buffer effect:
replay its recorded `set_row` calls. -/
def fill_bottom_flat_triangle (tex : Texture) (c : Pixel) (t : Triangle) :
    Texture :=
  (bottomFlatCalls c t).foldl applyRowCall tex

/-- The scanline loop of `Renderer::fill_top_flat_triangle`
(src/renderer.rs:219-234), recording the `set_row` calls it issues.  The
`t + bot.z * t + ...` depth expressions are exactly the source's. -/
def topFlatLoop (leftY botY leftZ rightZ botZ invslope1 invslope2 : ℚ)
    (c : Pixel) : ℕ → ℤ → ℚ → ℚ → List RowCall
  | 0, _, _, _ => []
  | n + 1, y, curx1, curx2 =>
    let t : ℚ := ((y : ℚ) - leftY) / (botY - leftY)
    let z_left := t + botZ * t + leftZ * (1 - t)
    let z_right := t + botZ * t + rightZ * (1 - t)
    ⟨truncQ curx1, truncQ curx2, y, -z_left, -z_right, c⟩ ::
      topFlatLoop leftY botY leftZ rightZ botZ invslope1 invslope2 c n
        (y + 1) (curx1 + invslope1) (curx2 + invslope2)

/-- The `set_row` calls `Renderer::fill_top_flat_triangle`
(src/renderer.rs:211-235) issues: scanlines from the truncated flat-edge
y through the truncated bottom-apex y inclusive. -/
def topFlatCalls (c : Pixel) (t : Triangle) : List RowCall :=
  let bot := t.p3
  let lr := if t.p2.x < t.p1.x then (t.p2, t.p1) else (t.p1, t.p2)
  let left := lr.1
  let right := lr.2
  let invslope1 := (bot.x - left.x) / (bot.y - left.y)
  let invslope2 := (bot.x - right.x) / (bot.y - right.y)
  let count := (truncQ bot.y + 1 - truncQ left.y).toNat
  topFlatLoop left.y bot.y left.z right.z bot.z invslope1 invslope2 c
    count (truncQ left.y) left.x right.x

/-- `Renderer::fill_top_flat_triangle` as a frame-buffer effect. -/
def fill_top_flat_triangle (tex : Texture) (c : Pixel) (t : Triangle) :
    Texture :=
  (topFlatCalls c t).foldl applyRowCall tex

/-- A stable ascending sort of the three transformed vertices by y,
matching `pts.sort_by(|p1, p2| p1.y.partial_cmp(&p2.y).unwrap_or(Equal))`
(src/renderer.rs:134-139): elements move only on a strict comparison. -/
def sort3 (a b c : Point) : Point × Point × Point :=
  let ab := if b.y < a.y then (b, a) else (a, b)
  let a := ab.1
  let b := ab.2
  if c.y < a.y then (c, a, b)
  else if c.y < b.y then (a, c, b)
  else (a, b, c)

/-- The renderer's mutable draw state (src/renderer.rs:13-23): the frame
buffer, the current transform, the current draw color and the light
position. -/
structure RendererState where
  tex : Texture
  transform : Transform
  color : Pixel
  light : Point

/-- `Renderer::set_color` (src/renderer.rs:279). -/
def set_color (r : RendererState) (c : Pixel) : RendererState :=
  { r with color := c }

/-- `Renderer::fill_triangle` (src/renderer.rs:129-172).  The lighting
intensity block of src/renderer.rs:144-153 computes a scaled color tuple
and discards it, so it has no frame-buffer or state effect and is not
reproduced here; the `self.color = pixel::WHITE` assignment and the final
restore of the old color are. -/
def fill_triangle (r : RendererState) (t : Triangle) : RendererState :=
  let centroid := (t.p1 + t.p2 + t.p3) * (1 / 3 : ℚ)
  let ct := triApply t r.transform
  if 0 ≤ dotP ct.normal centroid then r
  else
    let pts := sort3 ct.p1 ct.p2 ct.p3
    let top := pts.1
    let middle := pts.2.1
    let bot := pts.2.2
    let old_color := r.color
    let r1 := { r with color := WHITE }
    let r2 :=
      if top.y = middle.y then
        { r1 with tex := fill_top_flat_triangle r1.tex r1.color ct }
      else if middle.y = bot.y then
        { r1 with tex := fill_bottom_flat_triangle r1.tex r1.color ct }
      else
        let dy_middle := middle.y - top.y
        let dy_bot := bot.y - top.y
        let dx_bot := bot.x - top.x
        let dz_bot := bot.z - top.z
        let v4 : Point :=
          ⟨top.x + dy_middle / dy_bot * dx_bot, middle.y,
            top.z + dy_middle / dy_bot * dz_bot⟩
        let tex1 := fill_bottom_flat_triangle r1.tex r1.color ⟨top, middle, v4⟩
        { r1 with tex := fill_top_flat_triangle tex1 r1.color ⟨middle, v4, bot⟩ }
    { r2 with color := old_color }

/-! ## Basic grid lemmas -/

/-- A cell of a list after `set` holds either its old value or the value
written. -/
theorem getD_set_or {α : Type} [DecidableEq α] (l : List α) (n i : ℕ)
    (c d : α) : (l.set n c).getD i d = l.getD i d ∨ (l.set n c).getD i d = c := by
  rw [List.getD_eq_getElem?_getD, List.getD_eq_getElem?_getD, List.getElem?_set]
  split
  · split
    · right; rfl
    · left
      next h h' => rw [List.getElem?_eq_none (by omega)]
  · left; rfl

/-- Writing inside the list is read back. -/
theorem getD_set_self {α : Type} (l : List α) (n : ℕ) (c d : α)
    (h : n < l.length) : (l.set n c).getD n d = c := by
  rw [List.getD_eq_getElem?_getD, List.getElem?_set_eq_of_lt _ h]; rfl

/-- `set_pixel_nocheck` only ever stores the given color in the color
grid. -/
theorem set_pixel_nocheck_pixels_or (tex : Texture) (x y : ℤ) (d : Depth)
    (c : Pixel) (i : ℕ) :
    (set_pixel_nocheck tex x y d c).pixels.getD i BLACK
        = tex.pixels.getD i BLACK ∨
      (set_pixel_nocheck tex x y d c).pixels.getD i BLACK = c := by
  simp only [set_pixel_nocheck]
  exact getD_set_or ..

/-- `set_pixel` only ever stores the given color in the color grid. -/
theorem set_pixel_pixels_or (tex : Texture) (x y : ℤ) (d : Depth)
    (c : Pixel) (i : ℕ) :
    (set_pixel tex x y d c).pixels.getD i BLACK = tex.pixels.getD i BLACK ∨
      (set_pixel tex x y d c).pixels.getD i BLACK = c := by
  unfold set_pixel
  split
  · left; rfl
  · split
    · left; rfl
    · exact set_pixel_nocheck_pixels_or ..

/-- `set_pixel` only ever stores the given depth in the depth grid. -/
theorem set_pixel_depths_or (tex : Texture) (x y : ℤ) (d : Depth)
    (c : Pixel) (i : ℕ) :
    (set_pixel tex x y d c).depths.getD i Depth.negInf
        = tex.depths.getD i Depth.negInf ∨
      (set_pixel tex x y d c).depths.getD i Depth.negInf = d := by
  unfold set_pixel
  split
  · left; rfl
  · split
    · left; rfl
    · simp only [set_pixel_nocheck]
      exact getD_set_or ..

/-- `set_pixel` preserves the dimensions and the grid lengths. -/
theorem set_pixel_dims (tex : Texture) (x y : ℤ) (d : Depth) (c : Pixel) :
    (set_pixel tex x y d c).w = tex.w ∧ (set_pixel tex x y d c).h = tex.h ∧
      (set_pixel tex x y d c).pixels.length = tex.pixels.length := by
  unfold set_pixel set_pixel_nocheck
  split
  · exact ⟨rfl, rfl, rfl⟩
  · split
    · exact ⟨rfl, rfl, rfl⟩
    · exact ⟨rfl, rfl, by simp⟩

/-- An in-bounds `set_pixel` stores the color at `(x, y)`. -/
theorem colorAt_set_pixel_self (tex : Texture) (x y : ℤ) (d : Depth)
    (c : Pixel) (hx0 : 0 ≤ x) (hxw : x < (tex.w : ℤ)) (hy0 : 0 ≤ y)
    (hyh : y < (tex.h : ℤ)) (hlen : tex.pixels.length = tex.w * tex.h) :
    colorAt (set_pixel tex x y d c) x y = c := by
  have hidx : 0 ≤ y * (tex.w : ℤ) + x ∧
      y * (tex.w : ℤ) + x < (tex.w : ℤ) * tex.h := by
    constructor
    · have := mul_nonneg hy0 (show (0:ℤ) ≤ (tex.w : ℤ) by positivity)
      omega
    · have h1 : y * (tex.w : ℤ) ≤ ((tex.h : ℤ) - 1) * tex.w :=
        mul_le_mul_of_nonneg_right (by omega) (by positivity)
      have h2 : ((tex.h : ℤ) - 1) * (tex.w : ℤ)
          = (tex.w : ℤ) * tex.h - tex.w := by ring
      linarith
  unfold set_pixel
  rw [if_neg (by omega), if_neg (by omega)]
  unfold set_pixel_nocheck colorAt
  simp only
  apply getD_set_self
  rw [hlen]
  obtain ⟨ha, hb⟩ := hidx
  have hcast : ((tex.w * tex.h : ℕ) : ℤ) = (tex.w : ℤ) * tex.h := by
    push_cast; ring
  omega

/-! ## set_row lemmas -/

/-- Along a `set_row_loop`, every color cell keeps its value or becomes
the given color. -/
theorem set_row_loop_pixels_or (x1 x2 : ℤ) (d1 d2 : ℚ) (c : Pixel) (y : ℤ) :
    ∀ (n : ℕ) (x : ℤ) (tex : Texture) (i : ℕ),
      (set_row_loop x1 x2 d1 d2 c y n x tex).pixels.getD i BLACK
          = tex.pixels.getD i BLACK ∨
        (set_row_loop x1 x2 d1 d2 c y n x tex).pixels.getD i BLACK = c := by
  intro n
  induction n with
  | zero => intro x tex i; left; rfl
  | succ m ih =>
    intro x tex i
    rw [set_row_loop]
    rcases ih (x + 1) (set_pixel_nocheck tex x y
        (Depth.fin d1) c) i with h | h
    · rcases set_pixel_nocheck_pixels_or tex x y (Depth.fin d1) c i with h2 | h2
      · left; rw [h, h2]
      · right; rw [h, h2]
    · right; exact h

/-- `set_row` only ever stores the given color. -/
theorem set_row_pixels_or (tex : Texture) (x1 x2 y : ℤ) (d1 d2 : ℚ)
    (c : Pixel) (i : ℕ) :
    (set_row tex x1 x2 y d1 d2 c).pixels.getD i BLACK
        = tex.pixels.getD i BLACK ∨
      (set_row tex x1 x2 y d1 d2 c).pixels.getD i BLACK = c := by
  unfold set_row
  split
  · left; rfl
  · split
    · left; rfl
    · exact set_row_loop_pixels_or ..

/-- Replaying a list of recorded `set_row` calls that all carry color `c`
only ever stores `c`. -/
theorem foldl_rowcalls_pixels_or (c : Pixel) :
    ∀ (l : List RowCall), (∀ rc ∈ l, rc.color = c) →
    ∀ (tex : Texture) (i : ℕ),
      ((l.foldl applyRowCall tex).pixels.getD i BLACK
          = tex.pixels.getD i BLACK) ∨
        (l.foldl applyRowCall tex).pixels.getD i BLACK = c := by
  intro l
  induction l with
  | nil => intro _ tex i; left; rfl
  | cons rc rest ih =>
    intro hc tex i
    rw [List.foldl_cons]
    rcases ih (fun x hx => hc x (List.mem_cons_of_mem _ hx))
        (applyRowCall tex rc) i with h | h
    · rcases set_row_pixels_or tex rc.x1 rc.x2 rc.y rc.d1 rc.d2 rc.color i
          with h2 | h2
      · left; rw [h]; exact h2
      · right; rw [h]; unfold applyRowCall; rw [h2]
        exact hc rc (List.mem_cons_self ..)
    · right; exact h

/-- Every call recorded by `bottomFlatLoop` carries the given color. -/
theorem bottomFlatLoop_colors (topY leftY topZ leftZ rightZ i1 i2 : ℚ)
    (c : Pixel) :
    ∀ (n : ℕ) (y : ℤ) (a b : ℚ), ∀ rc ∈
      bottomFlatLoop topY leftY topZ leftZ rightZ i1 i2 c n y a b,
      rc.color = c := by
  intro n
  induction n with
  | zero => intro y a b rc h; simp [bottomFlatLoop] at h
  | succ m ih =>
    intro y a b rc h
    rw [bottomFlatLoop] at h
    rcases List.mem_cons.mp h with h | h
    · rw [h]
    · exact ih _ _ _ rc h

/-- Every call recorded by `bottomFlatCalls` carries the given color. -/
theorem bottomFlatCalls_colors (c : Pixel) (t : Triangle) :
    ∀ rc ∈ bottomFlatCalls c t, rc.color = c := by
  intro rc h
  unfold bottomFlatCalls at h
  rcases List.mem_append.mp h with h | h
  · exact bottomFlatLoop_colors _ _ _ _ _ _ _ c _ _ _ _ rc h
  · rw [List.mem_singleton.mp h]

/-- Every call recorded by `topFlatLoop` carries the given color. -/
theorem topFlatLoop_colors (leftY botY leftZ rightZ botZ i1 i2 : ℚ)
    (c : Pixel) :
    ∀ (n : ℕ) (y : ℤ) (a b : ℚ), ∀ rc ∈
      topFlatLoop leftY botY leftZ rightZ botZ i1 i2 c n y a b,
      rc.color = c := by
  intro n
  induction n with
  | zero => intro y a b rc h; simp [topFlatLoop] at h
  | succ m ih =>
    intro y a b rc h
    rw [topFlatLoop] at h
    rcases List.mem_cons.mp h with h | h
    · rw [h]
    · exact ih _ _ _ rc h

/-- Every call recorded by `topFlatCalls` carries the given color. -/
theorem topFlatCalls_colors (c : Pixel) (t : Triangle) :
    ∀ rc ∈ topFlatCalls c t, rc.color = c := by
  intro rc h
  unfold topFlatCalls at h
  exact topFlatLoop_colors _ _ _ _ _ _ _ c _ _ _ _ rc h

/-- `fill_bottom_flat_triangle` only ever stores its fill color. -/
theorem fill_bottom_flat_pixels_or (tex : Texture) (c : Pixel)
    (t : Triangle) (i : ℕ) :
    (fill_bottom_flat_triangle tex c t).pixels.getD i BLACK
        = tex.pixels.getD i BLACK ∨
      (fill_bottom_flat_triangle tex c t).pixels.getD i BLACK = c :=
  foldl_rowcalls_pixels_or c _ (bottomFlatCalls_colors c t) tex i

/-- `fill_top_flat_triangle` only ever stores its fill color. -/
theorem fill_top_flat_pixels_or (tex : Texture) (c : Pixel)
    (t : Triangle) (i : ℕ) :
    (fill_top_flat_triangle tex c t).pixels.getD i BLACK
        = tex.pixels.getD i BLACK ∨
      (fill_top_flat_triangle tex c t).pixels.getD i BLACK = c :=
  foldl_rowcalls_pixels_or c _ (topFlatCalls_colors c t) tex i

/-- Length of the scanlines recorded by `bottomFlatLoop`. -/
theorem bottomFlatLoop_length (topY leftY topZ leftZ rightZ i1 i2 : ℚ)
    (c : Pixel) :
    ∀ (n : ℕ) (y : ℤ) (a b : ℚ),
      (bottomFlatLoop topY leftY topZ leftZ rightZ i1 i2 c n y a b).length
        = n := by
  intro n
  induction n with
  | zero => intro y a b; rfl
  | succ m ih =>
    intro y a b
    rw [bottomFlatLoop]
    simp only [List.length_cons, ih]

/-! ## Claim C1 -/

/-- C1: the spec requires `set_pixel` to be a silent no-op for every
`(x, y)` outside `[0,W)×[0,H)`, but the guard `self.w < x || self.h < y`
(src/texture.rs:37) admits `x = W` (and `y = H`): on a 20×20 buffer,
`set_pixel(20, 0, 5, c)` writes `c` into the color grid at flat index
`0·20 + 20 = 20`, i.e. pixel `(0, 1)`, changing the grid. -/
theorem C1_set_pixel_guard_bug :
    (set_pixel (Texture.new 20 20) 20 0 (Depth.fin 5) (1, 2, 3)).pixels.getD
        20 BLACK = (1, 2, 3) ∧
      (Texture.new 20 20).pixels.getD 20 BLACK = BLACK ∧
      ((1, 2, 3) : Pixel) ≠ BLACK := by
  decide

/-! ## Claim C3 -/

/-- The back-face-culling early return of `fill_triangle`
(src/renderer.rs:132). -/
theorem fill_triangle_culled (r : RendererState) (t : Triangle)
    (h : 0 ≤ dotP (triApply t r.transform).normal
        ((t.p1 + t.p2 + t.p3) * (1 / 3 : ℚ))) :
    fill_triangle r t = r := by
  simp only [fill_triangle]
  rw [if_pos h]

/-- C3: whenever the dot product of the transformed triangle's face
normal with the centroid of the untransformed vertices is non-negative,
`fill_triangle` returns with the renderer state (in particular both
grids of the frame buffer) completely unchanged (src/renderer.rs:132). -/
theorem C3_backface_cull (r : RendererState) (t : Triangle)
    (h : 0 ≤ dotP (triApply t r.transform).normal
        ((t.p1 + t.p2 + t.p3) * (1 / 3 : ℚ))) :
    fill_triangle r t = r :=
  fill_triangle_culled r t h

/-- Witness for C3 at a concrete culled triangle. -/
theorem C3_backface_cull_witness :
    fill_triangle ⟨Texture.new 2 2, Transform.identity, BLACK, ⟨0, 0, 0⟩⟩
        ⟨⟨0, 0, 1⟩, ⟨4, 0, 1⟩, ⟨0, 4, 1⟩⟩
      = ⟨Texture.new 2 2, Transform.identity, BLACK, ⟨0, 0, 0⟩⟩ :=
  C3_backface_cull _ _ (by decide)

/-! ## Claim C4 -/

/-- C4: the claim says every pixel written by `set_row` receives the
depth `d1 + (d2 - d1)·(x - x1)/(x2 - x1)`; the source computes that
interpolant and then shadows it with `let d = d1` (src/texture.rs:71-73),
so `set_row(0, 2, 0, d1 = 0, d2 = 2, c)` stores depth `0` at `x = 1`
where the interpolant is `1`. -/
theorem C4_row_depth_constant_bug :
    (set_row (Texture.new 20 20) 0 2 0 0 2 WHITE).depths.getD 1 Depth.negInf
        = Depth.fin 0 ∧
      Depth.fin (0 : ℚ) ≠ Depth.fin ((0 : ℚ) + (2 - 0) * ((1 - 0) / (2 - 0))) := by
  decide

/-! ## Claim C5 -/

/-- The renderer state of the lighting counterexample: light at
`(0,0,-2)`, draw color `(10,20,30)`, identity transform, cleared 20×20
buffer. -/
def lightingBugR : RendererState :=
  ⟨Texture.new 20 20, Transform.identity, (10, 20, 30), ⟨0, 0, -2⟩⟩

/-- The triangle of the lighting counterexample; it survives back-face
culling and covers pixel `(1, 0)`. -/
def lightingBugT : Triangle := ⟨⟨0, 0, -1⟩, ⟨4, 0, -1⟩, ⟨0, 4, -1⟩⟩

/-- C5: the lighting intensity is computed and discarded
(src/renderer.rs:144-153), so the fill uses pure white.  Here the vector
from the centroid toward the light has non-positive dot product with the
face normal, so the intensity clamps to zero and the claim's scaled color
would be `(0,0,0)`; the code nevertheless writes `(255,255,255)`. -/
theorem C5_lighting_discarded_bug :
    (fill_triangle lightingBugR lightingBugT).tex.pixels.getD 1 BLACK
        = WHITE ∧
      dotP (lightingBugR.light
          - (lightingBugT.p1 + lightingBugT.p2 + lightingBugT.p3) * (1 / 3 : ℚ))
        lightingBugT.normal ≤ 0 ∧
      WHITE ≠ BLACK := by
  decide

/-! ## Claim C8 -/

/-- C8 counterexample: for the flat-bottom triangle with apex `(0,0,0)`
and base corners `(0,2,0)`, `(2,2,0)` (so `y0 = 0`, `y1 = 2`), the
bottom-flat fill routine issues 3 `set_row` calls, not `y1 - y0 = 2`:
the scanline loop runs `y1 - y0` times and src/renderer.rs:201-208 issues
one more row write for the base row. -/
theorem C8_scanline_count_counterexample :
    (bottomFlatCalls WHITE ⟨⟨0, 0, 0⟩, ⟨0, 2, 0⟩, ⟨2, 2, 0⟩⟩).length
      ≠ (truncQ (2 : ℚ) - truncQ (0 : ℚ)).toNat := by
  decide

/-- C8 (amended): for a flat-bottom triangle with apex truncating to
`y0` and both base vertices truncating to `y1 > y0`, the bottom-flat
fill routine issues exactly `y1 - y0 + 1` `set_row` calls (rows `y0`
through `y1` inclusive). -/
theorem C8_scanline_count (c : Pixel) (top left right : Point)
    (hflat : truncQ left.y = truncQ right.y)
    (hy : truncQ top.y < truncQ left.y) :
    (bottomFlatCalls c ⟨top, left, right⟩).length
      = (truncQ left.y - truncQ top.y).toNat + 1 := by
  simp only [bottomFlatCalls]
  by_cases hswap : right.x < left.x
  · simp only [if_pos hswap, List.length_append, List.length_cons,
      List.length_nil, bottomFlatLoop_length]
    omega
  · simp only [if_neg hswap, List.length_append, List.length_cons,
      List.length_nil, bottomFlatLoop_length]

/-- Witness for the amended C8 at the counterexample triangle. -/
theorem C8_scanline_count_witness :
    (bottomFlatCalls WHITE ⟨⟨0, 0, 0⟩, ⟨0, 2, 0⟩, ⟨2, 2, 0⟩⟩).length = 3 := by
  have h := C8_scanline_count WHITE ⟨0, 0, 0⟩ ⟨0, 2, 0⟩ ⟨2, 2, 0⟩
    (by decide) (by decide)
  simpa using h

/-! ## Bresenham loop lemmas -/

/-- One unfolding of the stepping loop in its x-dominant branch. -/
theorem lineLoop_succ_x (adx ady sx sy p2x p2y : ℤ) (c : Pixel)
    (h : ady ≤ adx) (fuel : ℕ) (x y e : ℤ) (tex : Texture) :
    lineLoop adx ady sx sy p2x p2y c (fuel + 1) x y e tex
      = if adx < 2 * e then
          (if x = p2x then
            some (set_pixel tex x (y + sy) Depth.posInf c, x, y + sy)
          else lineLoop adx ady sx sy p2x p2y c fuel (x + sx) (y + sy)
            (e - adx + ady) (set_pixel tex x (y + sy) Depth.posInf c))
        else
          (if x = p2x then some (set_pixel tex x y Depth.posInf c, x, y)
          else lineLoop adx ady sx sy p2x p2y c fuel (x + sx) y (e + ady)
            (set_pixel tex x y Depth.posInf c)) := by
  rw [lineLoop, if_pos h]
  by_cases hd : adx < 2 * e
  · rw [if_pos hd, if_pos hd]
  · rw [if_neg hd, if_neg hd]

/-- One unfolding of the stepping loop in its y-dominant branch. -/
theorem lineLoop_succ_y (adx ady sx sy p2x p2y : ℤ) (c : Pixel)
    (h : ¬ ady ≤ adx) (fuel : ℕ) (x y e : ℤ) (tex : Texture) :
    lineLoop adx ady sx sy p2x p2y c (fuel + 1) x y e tex
      = if ady < 2 * e then
          (if y = p2y then
            some (set_pixel tex (x + sx) y Depth.posInf c, x + sx, y)
          else lineLoop adx ady sx sy p2x p2y c fuel (x + sx) (y + sy)
            (e - ady + adx) (set_pixel tex (x + sx) y Depth.posInf c))
        else
          (if y = p2y then some (set_pixel tex x y Depth.posInf c, x, y)
          else lineLoop adx ady sx sy p2x p2y c fuel x (y + sy) (e + adx)
            (set_pixel tex x y Depth.posInf c)) := by
  rw [lineLoop, if_neg h]
  by_cases hd : ady < 2 * e
  · rw [if_pos hd, if_pos hd]
  · rw [if_neg hd, if_neg hd]

/-- Cancellation: an integer multiple of `adx` confined to an open
window of width `2·adx` centred as below is determined. -/
theorem bres_cancel (adx u v : ℤ) (h1 : 1 ≤ adx)
    (h2 : 0 ≤ 2 * (adx * v) + adx - 1 - 2 * (adx * u))
    (h3 : 2 * (adx * v) + adx - 1 - 2 * (adx * u) < 2 * adx) : u = v := by
  rcases lt_trichotomy u v with h | h | h
  · exfalso
    have hk : adx * (u + 1) ≤ adx * v :=
      mul_le_mul_of_nonneg_left (by omega) (by omega)
    rw [mul_add, mul_one] at hk
    omega
  · exact h
  · exfalso
    have hk : adx * (v + 1) ≤ adx * u :=
      mul_le_mul_of_nonneg_left (by omega) (by omega)
    rw [mul_add, mul_one] at hk
    omega

/-- The x-dominant stepping loop, entered after `j ≥ 1` iterations with
`M` minor steps taken and the error-term invariant holding, runs to
completion: it exits at the iteration where `x` reaches `p2x`, having
taken exactly `ady` minor steps. -/
theorem lineLoopX_run (adx ady sx sy p1x p1y p2x p2y : ℤ) (c : Pixel)
    (hd : ady ≤ adx) (hady : 0 ≤ ady) (hadx : 1 ≤ adx)
    (hsx : sx = 1 ∨ sx = -1)
    (hp2x : p2x = p1x + adx * sx) :
    ∀ (fuel : ℕ) (j M : ℤ) (tex : Texture),
      1 ≤ j → j ≤ adx →
      0 ≤ 2 * ((j - 1) * ady) + adx - 1 - 2 * (adx * M) →
      2 * ((j - 1) * ady) + adx - 1 - 2 * (adx * M) < 2 * adx →
      adx - j + 1 ≤ (fuel : ℤ) →
      ∃ t, lineLoop adx ady sx sy p2x p2y c fuel (p1x + j * sx)
          (p1y + M * sy) (j * ady - adx * M) tex
        = some (t, p2x, p1y + ady * sy) := by
  intro fuel
  induction fuel with
  | zero =>
    intro j M tex h1 h2 h3 h4 h5
    exfalso
    omega
  | succ n ih =>
    intro j M tex h1 h2 h3 h4 h5
    rw [lineLoop_succ_x _ _ _ _ _ _ _ hd]
    have hbridge : j * ady = (j - 1) * ady + ady := by ring
    by_cases hδ : adx < 2 * (j * ady - adx * M)
    · rw [if_pos hδ]
      by_cases hj : j = adx
      · have hx : p1x + j * sx = p2x := by rw [hp2x, hj]
        have hMady : M + 1 = ady := by
          have e2 : adx * ady = (j - 1) * ady + ady := by rw [hj]; ring
          have e3 : adx * (M + 1) = adx * M + adx := by ring
          apply bres_cancel adx (M + 1) ady hadx <;> omega
        have hy : p1y + M * sy + sy = p1y + ady * sy := by
          rw [← hMady]; ring
        rw [if_pos hx]
        exact ⟨_, by rw [hx, hy]⟩
      · have hx : ¬ p1x + j * sx = p2x := by
          rw [hp2x]; rcases hsx with rfl | rfl <;> omega
        rw [if_neg hx]
        have a1 : p1x + j * sx + sx = p1x + (j + 1) * sx := by ring
        have a2 : p1y + M * sy + sy = p1y + (M + 1) * sy := by ring
        have a3 : j * ady - adx * M - adx + ady
            = (j + 1) * ady - adx * (M + 1) := by ring
        rw [a1, a2, a3]
        have e3 : adx * (M + 1) = adx * M + adx := by ring
        have e4 : (j + 1 - 1) * ady = (j - 1) * ady + ady := by ring
        exact ih (j + 1) (M + 1) _ (by omega) (by omega) (by omega)
          (by omega) (by omega)
    · rw [if_neg hδ]
      by_cases hj : j = adx
      · have hx : p1x + j * sx = p2x := by rw [hp2x, hj]
        have hMady : M = ady := by
          have e2 : adx * ady = (j - 1) * ady + ady := by rw [hj]; ring
          apply bres_cancel adx M ady hadx <;> omega
        have hy : p1y + M * sy = p1y + ady * sy := by rw [hMady]
        rw [if_pos hx]
        exact ⟨_, by rw [hx, hy]⟩
      · have hx : ¬ p1x + j * sx = p2x := by
          rw [hp2x]; rcases hsx with rfl | rfl <;> omega
        rw [if_neg hx]
        have a1 : p1x + j * sx + sx = p1x + (j + 1) * sx := by ring
        have a3 : j * ady - adx * M + ady
            = (j + 1) * ady - adx * M := by ring
        rw [a1, a3]
        have e4 : (j + 1 - 1) * ady = (j - 1) * ady + ady := by ring
        exact ih (j + 1) M _ (by omega) (by omega) (by omega)
          (by omega) (by omega)

/-- The y-dominant stepping loop, entered after `j ≥ 1` iterations with
`M` minor steps taken and the error-term invariant holding, runs to
completion: it exits at the iteration where `y` reaches `p2y`, having
taken exactly `adx` minor steps. -/
theorem lineLoopY_run (adx ady sx sy p1x p1y p2x p2y : ℤ) (c : Pixel)
    (hd : ¬ ady ≤ adx) (hadx : 0 ≤ adx) (hady : 1 ≤ ady)
    (hsy : sy = 1 ∨ sy = -1)
    (hp2y : p2y = p1y + ady * sy) :
    ∀ (fuel : ℕ) (j M : ℤ) (tex : Texture),
      1 ≤ j → j ≤ ady →
      0 ≤ 2 * ((j - 1) * adx) + ady - 1 - 2 * (ady * M) →
      2 * ((j - 1) * adx) + ady - 1 - 2 * (ady * M) < 2 * ady →
      ady - j + 1 ≤ (fuel : ℤ) →
      ∃ t, lineLoop adx ady sx sy p2x p2y c fuel (p1x + M * sx)
          (p1y + j * sy) (j * adx - ady * M) tex
        = some (t, p1x + adx * sx, p2y) := by
  have hdc : adx ≤ ady := by omega
  intro fuel
  induction fuel with
  | zero =>
    intro j M tex h1 h2 h3 h4 h5
    exfalso
    omega
  | succ n ih =>
    intro j M tex h1 h2 h3 h4 h5
    rw [lineLoop_succ_y _ _ _ _ _ _ _ hd]
    have hbridge : j * adx = (j - 1) * adx + adx := by ring
    by_cases hδ : ady < 2 * (j * adx - ady * M)
    · rw [if_pos hδ]
      by_cases hj : j = ady
      · have hy : p1y + j * sy = p2y := by rw [hp2y, hj]
        have hMadx : M + 1 = adx := by
          have e2 : ady * adx = (j - 1) * adx + adx := by rw [hj]; ring
          have e3 : ady * (M + 1) = ady * M + ady := by ring
          apply bres_cancel ady (M + 1) adx hady <;> omega
        have hx : p1x + M * sx + sx = p1x + adx * sx := by
          rw [← hMadx]; ring
        rw [if_pos hy]
        exact ⟨_, by rw [hx, hy]⟩
      · have hy : ¬ p1y + j * sy = p2y := by
          rw [hp2y]; rcases hsy with rfl | rfl <;> omega
        rw [if_neg hy]
        have a1 : p1y + j * sy + sy = p1y + (j + 1) * sy := by ring
        have a2 : p1x + M * sx + sx = p1x + (M + 1) * sx := by ring
        have a3 : j * adx - ady * M - ady + adx
            = (j + 1) * adx - ady * (M + 1) := by ring
        rw [a1, a2, a3]
        have e3 : ady * (M + 1) = ady * M + ady := by ring
        have e4 : (j + 1 - 1) * adx = (j - 1) * adx + adx := by ring
        exact ih (j + 1) (M + 1) _ (by omega) (by omega) (by omega)
          (by omega) (by omega)
    · rw [if_neg hδ]
      by_cases hj : j = ady
      · have hy : p1y + j * sy = p2y := by rw [hp2y, hj]
        have hMadx : M = adx := by
          have e2 : ady * adx = (j - 1) * adx + adx := by rw [hj]; ring
          apply bres_cancel ady M adx hady <;> omega
        have hx : p1x + M * sx = p1x + adx * sx := by rw [hMadx]
        rw [if_pos hy]
        exact ⟨_, by rw [hx, hy]⟩
      · have hy : ¬ p1y + j * sy = p2y := by
          rw [hp2y]; rcases hsy with rfl | rfl <;> omega
        rw [if_neg hy]
        have a1 : p1y + j * sy + sy = p1y + (j + 1) * sy := by ring
        have a3 : j * adx - ady * M + adx
            = (j + 1) * adx - ady * M := by ring
        rw [a1, a3]
        have e4 : (j + 1 - 1) * adx = (j - 1) * adx + adx := by ring
        exact ih (j + 1) M _ (by omega) (by omega) (by omega)
          (by omega) (by omega)

/-- The quantities `lineArgs` computes satisfy the sign and endpoint
relations the stepping loop relies on. -/
theorem lineArgs_spec (T : Transform) (q1 q2 : Point) :
    0 ≤ (lineArgs T q1 q2).adx ∧ 0 ≤ (lineArgs T q1 q2).ady ∧
      ((lineArgs T q1 q2).xStep = 1 ∨ (lineArgs T q1 q2).xStep = -1) ∧
      ((lineArgs T q1 q2).yStep = 1 ∨ (lineArgs T q1 q2).yStep = -1) ∧
      (lineArgs T q1 q2).p2x
        = (lineArgs T q1 q2).p1x
          + (lineArgs T q1 q2).adx * (lineArgs T q1 q2).xStep ∧
      (lineArgs T q1 q2).p2y
        = (lineArgs T q1 q2).p1y
          + (lineArgs T q1 q2).ady * (lineArgs T q1 q2).yStep := by
  simp only [lineArgs]
  refine ⟨?_, ?_, ?_, ?_, ?_, ?_⟩ <;> split_ifs <;> omega

/-- With insufficient fuel the x-dominant loop cannot exit: starting
`j ≥ 0` iterations in, the dominant coordinate needs `adx - j` more
steps. -/
theorem lineLoopX_none (adx ady sx sy p1x p2x p2y : ℤ) (c : Pixel)
    (hd : ady ≤ adx) (hsx : sx = 1 ∨ sx = -1)
    (hp2x : p2x = p1x + adx * sx) :
    ∀ (fuel : ℕ) (j y e : ℤ) (tex : Texture), 0 ≤ j →
      (fuel : ℤ) ≤ adx - j →
      lineLoop adx ady sx sy p2x p2y c fuel (p1x + j * sx) y e tex
        = none := by
  intro fuel
  induction fuel with
  | zero => intro j y e tex h0 hf; rfl
  | succ n ih =>
    intro j y e tex h0 hf
    have hj : j < adx := by omega
    rw [lineLoop_succ_x _ _ _ _ _ _ _ hd]
    have hx : ¬ p1x + j * sx = p2x := by
      rw [hp2x]; rcases hsx with rfl | rfl <;> omega
    have a1 : p1x + j * sx + sx = p1x + (j + 1) * sx := by ring
    by_cases hδ : adx < 2 * e
    · rw [if_pos hδ, if_neg hx, a1]
      exact ih (j + 1) _ _ _ (by omega) (by omega)
    · rw [if_neg hδ, if_neg hx, a1]
      exact ih (j + 1) _ _ _ (by omega) (by omega)

/-- With insufficient fuel the y-dominant loop cannot exit. -/
theorem lineLoopY_none (adx ady sx sy p1y p2x p2y : ℤ) (c : Pixel)
    (hd : ¬ ady ≤ adx) (hsy : sy = 1 ∨ sy = -1)
    (hp2y : p2y = p1y + ady * sy) :
    ∀ (fuel : ℕ) (j x e : ℤ) (tex : Texture), 0 ≤ j →
      (fuel : ℤ) ≤ ady - j →
      lineLoop adx ady sx sy p2x p2y c fuel x (p1y + j * sy) e tex
        = none := by
  intro fuel
  induction fuel with
  | zero => intro j x e tex h0 hf; rfl
  | succ n ih =>
    intro j x e tex h0 hf
    have hj : j < ady := by omega
    rw [lineLoop_succ_y _ _ _ _ _ _ _ hd]
    have hy : ¬ p1y + j * sy = p2y := by
      rw [hp2y]; rcases hsy with rfl | rfl <;> omega
    have a1 : p1y + j * sy + sy = p1y + (j + 1) * sy := by ring
    by_cases hδ : ady < 2 * e
    · rw [if_pos hδ, if_neg hy, a1]
      exact ih (j + 1) _ _ _ (by omega) (by omega)
    · rw [if_neg hδ, if_neg hy, a1]
      exact ih (j + 1) _ _ _ (by omega) (by omega)

/-- From its initial state (`x = p1x`, `y = p1y`, `error = 0`) the
stepping loop terminates within `max adx ady + 1` iterations, exiting
with both coordinates at the destination pixel. -/
theorem lineLoop_run (adx ady sx sy p1x p1y p2x p2y : ℤ) (c : Pixel)
    (tex : Texture) (hadx : 0 ≤ adx) (hady : 0 ≤ ady)
    (hsx : sx = 1 ∨ sx = -1) (hsy : sy = 1 ∨ sy = -1)
    (hp2x : p2x = p1x + adx * sx) (hp2y : p2y = p1y + ady * sy)
    (fuel : ℕ) (hfuel : max adx ady + 1 ≤ (fuel : ℤ)) :
    ∃ t, lineLoop adx ady sx sy p2x p2y c fuel p1x p1y 0 tex
      = some (t, p2x, p2y) := by
  have hmax := max_choice adx ady
  obtain ⟨n, rfl⟩ : ∃ n, fuel = n + 1 := by
    rcases fuel with _ | n
    · exfalso
      rcases hmax with h | h <;> rw [h] at hfuel <;> simp at hfuel <;> omega
    · exact ⟨n, rfl⟩
  by_cases hd : ady ≤ adx
  · have hm : max adx ady = adx := max_eq_left hd
    rw [hm] at hfuel
    rw [lineLoop_succ_x _ _ _ _ _ _ _ hd]
    have h0 : ¬ (adx < 2 * (0 : ℤ)) := by omega
    rw [if_neg h0]
    by_cases hz : adx = 0
    · have hadyz : ady = 0 := by omega
      have hx : p1x = p2x := by rw [hp2x, hz]; ring
      have hy : p1y = p2y := by rw [hp2y, hadyz]; ring
      rw [if_pos hx]
      exact ⟨_, by rw [hx, hy]⟩
    · have hx : ¬ p1x = p2x := by
        rw [hp2x]; rcases hsx with rfl | rfl <;> omega
      rw [if_neg hx]
      obtain ⟨t, ht⟩ := lineLoopX_run adx ady sx sy p1x p1y p2x p2y c hd
        hady (by omega) hsx hp2x n 1 0
        (set_pixel tex p1x p1y Depth.posInf c)
        (by omega) (by omega) (by omega) (by omega) (by omega)
      rw [show p1x + 1 * sx = p1x + sx by ring,
        show p1y + 0 * sy = p1y by ring,
        show (1 : ℤ) * ady - adx * 0 = 0 + ady by ring] at ht
      refine ⟨t, ?_⟩
      rw [ht, hp2y]
  · have hm : max adx ady = ady := max_eq_right (by omega)
    rw [hm] at hfuel
    have hady1 : 1 ≤ ady := by omega
    rw [lineLoop_succ_y _ _ _ _ _ _ _ hd]
    have h0 : ¬ (ady < 2 * (0 : ℤ)) := by omega
    rw [if_neg h0]
    have hy : ¬ p1y = p2y := by
      rw [hp2y]; rcases hsy with rfl | rfl <;> omega
    rw [if_neg hy]
    obtain ⟨t, ht⟩ := lineLoopY_run adx ady sx sy p1x p1y p2x p2y c hd
      hadx hady1 hsy hp2y n 1 0
      (set_pixel tex p1x p1y Depth.posInf c)
      (by omega) (by omega) (by omega) (by omega) (by omega)
    rw [show p1y + 1 * sy = p1y + sy by ring,
      show p1x + 0 * sx = p1x by ring,
      show (1 : ℤ) * adx - ady * 0 = 0 + adx by ring] at ht
    refine ⟨t, ?_⟩
    rw [ht, hp2x]

/-- The stepping loop preserves the frame buffer's dimensions and grid
lengths. -/
theorem lineLoop_dims (adx ady sx sy p2x p2y : ℤ) (c : Pixel) :
    ∀ (fuel : ℕ) (x y e : ℤ) (tex t : Texture) (xf yf : ℤ),
      lineLoop adx ady sx sy p2x p2y c fuel x y e tex = some (t, xf, yf) →
      t.w = tex.w ∧ t.h = tex.h ∧
        t.pixels.length = tex.pixels.length := by
  intro fuel
  induction fuel with
  | zero => intro x y e tex t xf yf h; exact absurd h (by simp [lineLoop])
  | succ n ih =>
    intro x y e tex t xf yf h
    by_cases hd : ady ≤ adx
    · rw [lineLoop_succ_x _ _ _ _ _ _ _ hd] at h
      obtain ⟨hw, hh, hl⟩ := set_pixel_dims tex x (y + sy) Depth.posInf c
      obtain ⟨hw', hh', hl'⟩ := set_pixel_dims tex x y Depth.posInf c
      split_ifs at h with hδ hx hx
      · simp only [Option.some.injEq, Prod.mk.injEq] at h
        obtain ⟨rfl, -, -⟩ := h
        exact ⟨hw, hh, hl⟩
      · obtain ⟨h1, h2, h3⟩ := ih _ _ _ _ _ _ _ h
        exact ⟨h1.trans hw, h2.trans hh, h3.trans hl⟩
      · simp only [Option.some.injEq, Prod.mk.injEq] at h
        obtain ⟨rfl, -, -⟩ := h
        exact ⟨hw', hh', hl'⟩
      · obtain ⟨h1, h2, h3⟩ := ih _ _ _ _ _ _ _ h
        exact ⟨h1.trans hw', h2.trans hh', h3.trans hl'⟩
    · rw [lineLoop_succ_y _ _ _ _ _ _ _ hd] at h
      obtain ⟨hw, hh, hl⟩ := set_pixel_dims tex (x + sx) y Depth.posInf c
      obtain ⟨hw', hh', hl'⟩ := set_pixel_dims tex x y Depth.posInf c
      split_ifs at h with hδ hx hx
      · simp only [Option.some.injEq, Prod.mk.injEq] at h
        obtain ⟨rfl, -, -⟩ := h
        exact ⟨hw, hh, hl⟩
      · obtain ⟨h1, h2, h3⟩ := ih _ _ _ _ _ _ _ h
        exact ⟨h1.trans hw, h2.trans hh, h3.trans hl⟩
      · simp only [Option.some.injEq, Prod.mk.injEq] at h
        obtain ⟨rfl, -, -⟩ := h
        exact ⟨hw', hh', hl'⟩
      · obtain ⟨h1, h2, h3⟩ := ih _ _ _ _ _ _ _ h
        exact ⟨h1.trans hw', h2.trans hh', h3.trans hl'⟩

/-- The stepping loop only ever stores the draw color in the color
grid. -/
theorem lineLoop_pixels_or (adx ady sx sy p2x p2y : ℤ) (c : Pixel) :
    ∀ (fuel : ℕ) (x y e : ℤ) (tex t : Texture) (xf yf : ℤ),
      lineLoop adx ady sx sy p2x p2y c fuel x y e tex = some (t, xf, yf) →
      ∀ i : ℕ, t.pixels.getD i BLACK = tex.pixels.getD i BLACK ∨
        t.pixels.getD i BLACK = c := by
  intro fuel
  induction fuel with
  | zero => intro x y e tex t xf yf h; exact absurd h (by simp [lineLoop])
  | succ n ih =>
    intro x y e tex t xf yf h i
    by_cases hd : ady ≤ adx
    · rw [lineLoop_succ_x _ _ _ _ _ _ _ hd] at h
      split_ifs at h with hδ hx hx
      · simp only [Option.some.injEq, Prod.mk.injEq] at h
        obtain ⟨rfl, -, -⟩ := h
        exact set_pixel_pixels_or ..
      · rcases ih _ _ _ _ _ _ _ h i with h1 | h1
        · rcases set_pixel_pixels_or tex x (y + sy) Depth.posInf c i
            with h2 | h2
          · left; rw [h1, h2]
          · right; rw [h1, h2]
        · right; exact h1
      · simp only [Option.some.injEq, Prod.mk.injEq] at h
        obtain ⟨rfl, -, -⟩ := h
        exact set_pixel_pixels_or ..
      · rcases ih _ _ _ _ _ _ _ h i with h1 | h1
        · rcases set_pixel_pixels_or tex x y Depth.posInf c i with h2 | h2
          · left; rw [h1, h2]
          · right; rw [h1, h2]
        · right; exact h1
    · rw [lineLoop_succ_y _ _ _ _ _ _ _ hd] at h
      split_ifs at h with hδ hx hx
      · simp only [Option.some.injEq, Prod.mk.injEq] at h
        obtain ⟨rfl, -, -⟩ := h
        exact set_pixel_pixels_or ..
      · rcases ih _ _ _ _ _ _ _ h i with h1 | h1
        · rcases set_pixel_pixels_or tex (x + sx) y Depth.posInf c i
            with h2 | h2
          · left; rw [h1, h2]
          · right; rw [h1, h2]
        · right; exact h1
      · simp only [Option.some.injEq, Prod.mk.injEq] at h
        obtain ⟨rfl, -, -⟩ := h
        exact set_pixel_pixels_or ..
      · rcases ih _ _ _ _ _ _ _ h i with h1 | h1
        · rcases set_pixel_pixels_or tex x y Depth.posInf c i with h2 | h2
          · left; rw [h1, h2]
          · right; rw [h1, h2]
        · right; exact h1

/-- The stepping loop only ever stores positive infinity in the depth
grid. -/
theorem lineLoop_depths_or (adx ady sx sy p2x p2y : ℤ) (c : Pixel) :
    ∀ (fuel : ℕ) (x y e : ℤ) (tex t : Texture) (xf yf : ℤ),
      lineLoop adx ady sx sy p2x p2y c fuel x y e tex = some (t, xf, yf) →
      ∀ i : ℕ, t.depths.getD i Depth.negInf = tex.depths.getD i Depth.negInf ∨
        t.depths.getD i Depth.negInf = Depth.posInf := by
  intro fuel
  induction fuel with
  | zero => intro x y e tex t xf yf h; exact absurd h (by simp [lineLoop])
  | succ n ih =>
    intro x y e tex t xf yf h i
    by_cases hd : ady ≤ adx
    · rw [lineLoop_succ_x _ _ _ _ _ _ _ hd] at h
      split_ifs at h with hδ hx hx
      · simp only [Option.some.injEq, Prod.mk.injEq] at h
        obtain ⟨rfl, -, -⟩ := h
        exact set_pixel_depths_or ..
      · rcases ih _ _ _ _ _ _ _ h i with h1 | h1
        · rcases set_pixel_depths_or tex x (y + sy) Depth.posInf c i
            with h2 | h2
          · left; rw [h1, h2]
          · right; rw [h1, h2]
        · right; exact h1
      · simp only [Option.some.injEq, Prod.mk.injEq] at h
        obtain ⟨rfl, -, -⟩ := h
        exact set_pixel_depths_or ..
      · rcases ih _ _ _ _ _ _ _ h i with h1 | h1
        · rcases set_pixel_depths_or tex x y Depth.posInf c i with h2 | h2
          · left; rw [h1, h2]
          · right; rw [h1, h2]
        · right; exact h1
    · rw [lineLoop_succ_y _ _ _ _ _ _ _ hd] at h
      split_ifs at h with hδ hx hx
      · simp only [Option.some.injEq, Prod.mk.injEq] at h
        obtain ⟨rfl, -, -⟩ := h
        exact set_pixel_depths_or ..
      · rcases ih _ _ _ _ _ _ _ h i with h1 | h1
        · rcases set_pixel_depths_or tex (x + sx) y Depth.posInf c i
            with h2 | h2
          · left; rw [h1, h2]
          · right; rw [h1, h2]
        · right; exact h1
      · simp only [Option.some.injEq, Prod.mk.injEq] at h
        obtain ⟨rfl, -, -⟩ := h
        exact set_pixel_depths_or ..
      · rcases ih _ _ _ _ _ _ _ h i with h1 | h1
        · rcases set_pixel_depths_or tex x y Depth.posInf c i with h2 | h2
          · left; rw [h1, h2]
          · right; rw [h1, h2]
        · right; exact h1

/-- When the stepping loop exits, the texture it returns was produced by
its final pixel write, at the returned coordinates, and the loop never
changed the buffer's dimensions before that write. -/
theorem lineLoop_last (adx ady sx sy p2x p2y : ℤ) (c : Pixel) :
    ∀ (fuel : ℕ) (x y e : ℤ) (tex t : Texture) (xf yf : ℤ),
      lineLoop adx ady sx sy p2x p2y c fuel x y e tex = some (t, xf, yf) →
      ∃ tex', t = set_pixel tex' xf yf Depth.posInf c ∧
        tex'.w = tex.w ∧ tex'.h = tex.h ∧
        tex'.pixels.length = tex.pixels.length := by
  intro fuel
  induction fuel with
  | zero => intro x y e tex t xf yf h; exact absurd h (by simp [lineLoop])
  | succ n ih =>
    intro x y e tex t xf yf h
    by_cases hd : ady ≤ adx
    · rw [lineLoop_succ_x _ _ _ _ _ _ _ hd] at h
      split_ifs at h with hδ hx hx
      · simp only [Option.some.injEq, Prod.mk.injEq] at h
        obtain ⟨rfl, rfl, rfl⟩ := h
        exact ⟨tex, rfl, rfl, rfl, rfl⟩
      · obtain ⟨tex', h1, h2, h3, h4⟩ := ih _ _ _ _ _ _ _ h
        obtain ⟨hw, hh, hl⟩ := set_pixel_dims tex x (y + sy) Depth.posInf c
        exact ⟨tex', h1, h2.trans hw, h3.trans hh, h4.trans hl⟩
      · simp only [Option.some.injEq, Prod.mk.injEq] at h
        obtain ⟨rfl, rfl, rfl⟩ := h
        exact ⟨tex, rfl, rfl, rfl, rfl⟩
      · obtain ⟨tex', h1, h2, h3, h4⟩ := ih _ _ _ _ _ _ _ h
        obtain ⟨hw, hh, hl⟩ := set_pixel_dims tex x y Depth.posInf c
        exact ⟨tex', h1, h2.trans hw, h3.trans hh, h4.trans hl⟩
    · rw [lineLoop_succ_y _ _ _ _ _ _ _ hd] at h
      split_ifs at h with hδ hx hx
      · simp only [Option.some.injEq, Prod.mk.injEq] at h
        obtain ⟨rfl, rfl, rfl⟩ := h
        exact ⟨tex, rfl, rfl, rfl, rfl⟩
      · obtain ⟨tex', h1, h2, h3, h4⟩ := ih _ _ _ _ _ _ _ h
        obtain ⟨hw, hh, hl⟩ := set_pixel_dims tex (x + sx) y Depth.posInf c
        exact ⟨tex', h1, h2.trans hw, h3.trans hh, h4.trans hl⟩
      · simp only [Option.some.injEq, Prod.mk.injEq] at h
        obtain ⟨rfl, rfl, rfl⟩ := h
        exact ⟨tex, rfl, rfl, rfl, rfl⟩
      · obtain ⟨tex', h1, h2, h3, h4⟩ := ih _ _ _ _ _ _ _ h
        obtain ⟨hw, hh, hl⟩ := set_pixel_dims tex x y Depth.posInf c
        exact ⟨tex', h1, h2.trans hw, h3.trans hh, h4.trans hl⟩

/-- Started with error term `0`, the stepping loop paints its starting
pixel in its first iteration (no minor step can fire), and that cell
still holds the draw color when the loop exits. -/
theorem lineLoop_start_painted (adx ady sx sy p2x p2y : ℤ) (c : Pixel)
    (hadx : 0 ≤ adx) (hady : 0 ≤ ady) :
    ∀ (fuel : ℕ) (x y : ℤ) (tex t : Texture) (xf yf : ℤ),
      lineLoop adx ady sx sy p2x p2y c fuel x y 0 tex = some (t, xf, yf) →
      0 ≤ x → x < (tex.w : ℤ) → 0 ≤ y → y < (tex.h : ℤ) →
      tex.pixels.length = tex.w * tex.h →
      colorAt t x y = c := by
  intro fuel
  rcases fuel with _ | n
  · intro x y tex t xf yf h
    exact absurd h (by simp [lineLoop])
  · intro x y tex t xf yf h hx0 hxw hy0 hyh hlen
    have hc1 : colorAt (set_pixel tex x y Depth.posInf c) x y = c :=
      colorAt_set_pixel_self tex x y Depth.posInf c hx0 hxw hy0 hyh hlen
    obtain ⟨hw1, hh1, hl1⟩ := set_pixel_dims tex x y Depth.posInf c
    by_cases hd : ady ≤ adx
    · rw [lineLoop_succ_x _ _ _ _ _ _ _ hd] at h
      rw [if_neg (show ¬ adx < 2 * (0:ℤ) by omega)] at h
      by_cases hx : x = p2x
      · rw [if_pos hx] at h
        simp only [Option.some.injEq, Prod.mk.injEq] at h
        obtain ⟨rfl, -, -⟩ := h
        exact hc1
      · rw [if_neg hx] at h
        obtain ⟨hw, hh, hl⟩ := lineLoop_dims _ _ _ _ _ _ _ _ _ _ _ _ _ _ _ h
        have hor := lineLoop_pixels_or _ _ _ _ _ _ _ _ _ _ _ _ _ _ _ h
          ((y * tex.w + x).toNat)
        unfold colorAt at hc1 ⊢
        rw [hw1] at hc1
        rw [hw, hw1]
        rcases hor with h1 | h1
        · rw [h1]; exact hc1
        · exact h1
    · rw [lineLoop_succ_y _ _ _ _ _ _ _ hd] at h
      rw [if_neg (show ¬ ady < 2 * (0:ℤ) by omega)] at h
      by_cases hx : y = p2y
      · rw [if_pos hx] at h
        simp only [Option.some.injEq, Prod.mk.injEq] at h
        obtain ⟨rfl, -, -⟩ := h
        exact hc1
      · rw [if_neg hx] at h
        obtain ⟨hw, hh, hl⟩ := lineLoop_dims _ _ _ _ _ _ _ _ _ _ _ _ _ _ _ h
        have hor := lineLoop_pixels_or _ _ _ _ _ _ _ _ _ _ _ _ _ _ _ h
          ((y * tex.w + x).toNat)
        unfold colorAt at hc1 ⊢
        rw [hw1] at hc1
        rw [hw, hw1]
        rcases hor with h1 | h1
        · rw [h1]; exact hc1
        · exact h1

/-- `draw_line` returns the loop's texture when the loop exits. -/
theorem draw_line_eq_of_some (T : Transform) (c : Pixel) (tex : Texture)
    (q1 q2 : Point) (t : Texture) (xf yf : ℤ)
    (h : lineLoop (lineArgs T q1 q2).adx (lineArgs T q1 q2).ady
        (lineArgs T q1 q2).xStep (lineArgs T q1 q2).yStep
        (lineArgs T q1 q2).p2x (lineArgs T q1 q2).p2y c
        (lineFuel (lineArgs T q1 q2)) (lineArgs T q1 q2).p1x
        (lineArgs T q1 q2).p1y 0 tex = some (t, xf, yf)) :
    draw_line T c tex q1 q2 = t := by
  unfold draw_line
  rw [h]

/-- `draw_line` returns the buffer unchanged when the loop's fuel runs
out (which, by `lineLoop_run`, does not happen at `lineFuel`). -/
theorem draw_line_eq_of_none (T : Transform) (c : Pixel) (tex : Texture)
    (q1 q2 : Point)
    (h : lineLoop (lineArgs T q1 q2).adx (lineArgs T q1 q2).ady
        (lineArgs T q1 q2).xStep (lineArgs T q1 q2).yStep
        (lineArgs T q1 q2).p2x (lineArgs T q1 q2).p2y c
        (lineFuel (lineArgs T q1 q2)) (lineArgs T q1 q2).p1x
        (lineArgs T q1 q2).p1y 0 tex = none) :
    draw_line T c tex q1 q2 = tex := by
  unfold draw_line
  rw [h]

/-! ## Claim C9 -/

set_option maxRecDepth 8000 in
/-- C9 counterexample: the claim quantifies over every pair of
endpoints, but on a 20×20 buffer the run of
`draw_line((0,20,0), (5,20,0))` aborts in its very first iteration: the
write at `(0, 20)` passes the off-by-one `set_pixel` guard of C1 and
indexes flat position `20·20 + 0 = 400` of the 400-element grids, where
the source's `Vec` indexing panics — the loop is stopped there, not at
the iteration in which the dominant coordinate reaches the
destination's. -/
theorem C9_line_loop_panic_counterexample :
    lineLoopAborts (lineArgs Transform.identity ⟨0, 20, 0⟩ ⟨5, 20, 0⟩).adx
        (lineArgs Transform.identity ⟨0, 20, 0⟩ ⟨5, 20, 0⟩).ady
        (lineArgs Transform.identity ⟨0, 20, 0⟩ ⟨5, 20, 0⟩).xStep
        (lineArgs Transform.identity ⟨0, 20, 0⟩ ⟨5, 20, 0⟩).yStep
        (lineArgs Transform.identity ⟨0, 20, 0⟩ ⟨5, 20, 0⟩).p2x
        (lineArgs Transform.identity ⟨0, 20, 0⟩ ⟨5, 20, 0⟩).p2y WHITE
        (lineFuel (lineArgs Transform.identity ⟨0, 20, 0⟩ ⟨5, 20, 0⟩))
        (lineArgs Transform.identity ⟨0, 20, 0⟩ ⟨5, 20, 0⟩).p1x
        (lineArgs Transform.identity ⟨0, 20, 0⟩ ⟨5, 20, 0⟩).p1y 0
        (Texture.new 20 20) = true ∧
      set_pixel_panics (Texture.new 20 20)
        (lineArgs Transform.identity ⟨0, 20, 0⟩ ⟨5, 20, 0⟩).p1x
        (lineArgs Transform.identity ⟨0, 20, 0⟩ ⟨5, 20, 0⟩).p1y := by
  decide

/-- C9 (amended): for every pair of endpoints whose run performs no
out-of-range grid write (`lineLoopAborts` is `false`; on an aborting run
the source's `Vec` indexing stops the loop instead, see the
counterexample), the stepping loop of `draw_line` terminates, and it
exits exactly at the iteration in which the dominant-axis coordinate
reaches the destination's: with fuel for `max adx ady + 1` iterations it
returns, with both final coordinates equal to the destination pixel's,
while with fuel for only `max adx ady` iterations it has not yet exited.
On abort-free runs the embedded loop agrees with the source write for
write, so the hypothesis exactly delimits the runs the claim can speak
about. -/
theorem C9_line_loop_termination (T : Transform) (q1 q2 : Point)
    (tex : Texture) (c : Pixel)
    (hsafe : lineLoopAborts (lineArgs T q1 q2).adx (lineArgs T q1 q2).ady
        (lineArgs T q1 q2).xStep (lineArgs T q1 q2).yStep
        (lineArgs T q1 q2).p2x (lineArgs T q1 q2).p2y c
        (lineFuel (lineArgs T q1 q2))
        (lineArgs T q1 q2).p1x (lineArgs T q1 q2).p1y 0 tex = false) :
    (∃ t, lineLoop (lineArgs T q1 q2).adx (lineArgs T q1 q2).ady
        (lineArgs T q1 q2).xStep (lineArgs T q1 q2).yStep
        (lineArgs T q1 q2).p2x (lineArgs T q1 q2).p2y c
        (lineFuel (lineArgs T q1 q2))
        (lineArgs T q1 q2).p1x (lineArgs T q1 q2).p1y 0 tex
      = some (t, (lineArgs T q1 q2).p2x, (lineArgs T q1 q2).p2y)) ∧
      lineLoop (lineArgs T q1 q2).adx (lineArgs T q1 q2).ady
        (lineArgs T q1 q2).xStep (lineArgs T q1 q2).yStep
        (lineArgs T q1 q2).p2x (lineArgs T q1 q2).p2y c
        ((max (lineArgs T q1 q2).adx (lineArgs T q1 q2).ady).toNat)
        (lineArgs T q1 q2).p1x (lineArgs T q1 q2).p1y 0 tex
      = none := by
  clear hsafe
  obtain ⟨hadx, hady, hsx, hsy, hp2x, hp2y⟩ := lineArgs_spec T q1 q2
  set a := lineArgs T q1 q2 with ha
  constructor
  · apply lineLoop_run a.adx a.ady a.xStep a.yStep a.p1x a.p1y a.p2x a.p2y
      c tex hadx hady hsx hsy hp2x hp2y
    simp only [lineFuel]
    push_cast
    rcases max_choice a.adx a.ady with h | h <;> rw [h] <;> omega
  · by_cases hd : a.ady ≤ a.adx
    · have h0 := lineLoopX_none a.adx a.ady a.xStep a.yStep a.p1x a.p2x
        a.p2y c hd hsx hp2x ((max a.adx a.ady).toNat) 0 a.p1y 0 tex
        le_rfl (by rcases max_choice a.adx a.ady with h | h <;> rw [h] <;> omega)
      rw [show a.p1x + 0 * a.xStep = a.p1x by ring] at h0
      exact h0
    · have h0 := lineLoopY_none a.adx a.ady a.xStep a.yStep a.p1y a.p2x
        a.p2y c hd hsy hp2y ((max a.adx a.ady).toNat) 0 a.p1x 0 tex
        le_rfl (by rcases max_choice a.adx a.ady with h | h <;> rw [h] <;> omega)
      rw [show a.p1y + 0 * a.yStep = a.p1y by ring] at h0
      exact h0

set_option maxRecDepth 8000 in
/-- Witness for the amended C9 on the literal Bresenham scenario, whose
run is abort-free. -/
theorem C9_line_loop_termination_witness :
    (lineLoop (lineArgs Transform.identity ⟨0, 0, 0⟩ ⟨5, 3, 0⟩).adx
        (lineArgs Transform.identity ⟨0, 0, 0⟩ ⟨5, 3, 0⟩).ady
        (lineArgs Transform.identity ⟨0, 0, 0⟩ ⟨5, 3, 0⟩).xStep
        (lineArgs Transform.identity ⟨0, 0, 0⟩ ⟨5, 3, 0⟩).yStep
        (lineArgs Transform.identity ⟨0, 0, 0⟩ ⟨5, 3, 0⟩).p2x
        (lineArgs Transform.identity ⟨0, 0, 0⟩ ⟨5, 3, 0⟩).p2y WHITE
        (lineFuel (lineArgs Transform.identity ⟨0, 0, 0⟩ ⟨5, 3, 0⟩))
        (lineArgs Transform.identity ⟨0, 0, 0⟩ ⟨5, 3, 0⟩).p1x
        (lineArgs Transform.identity ⟨0, 0, 0⟩ ⟨5, 3, 0⟩).p1y 0
        (Texture.new 20 20)).isSome = true ∧
      lineLoop (lineArgs Transform.identity ⟨0, 0, 0⟩ ⟨5, 3, 0⟩).adx
        (lineArgs Transform.identity ⟨0, 0, 0⟩ ⟨5, 3, 0⟩).ady
        (lineArgs Transform.identity ⟨0, 0, 0⟩ ⟨5, 3, 0⟩).xStep
        (lineArgs Transform.identity ⟨0, 0, 0⟩ ⟨5, 3, 0⟩).yStep
        (lineArgs Transform.identity ⟨0, 0, 0⟩ ⟨5, 3, 0⟩).p2x
        (lineArgs Transform.identity ⟨0, 0, 0⟩ ⟨5, 3, 0⟩).p2y WHITE
        ((max (lineArgs Transform.identity ⟨0, 0, 0⟩ ⟨5, 3, 0⟩).adx
          (lineArgs Transform.identity ⟨0, 0, 0⟩ ⟨5, 3, 0⟩).ady).toNat)
        (lineArgs Transform.identity ⟨0, 0, 0⟩ ⟨5, 3, 0⟩).p1x
        (lineArgs Transform.identity ⟨0, 0, 0⟩ ⟨5, 3, 0⟩).p1y 0
        (Texture.new 20 20) = none := by
  have h := C9_line_loop_termination Transform.identity ⟨0, 0, 0⟩
    ⟨5, 3, 0⟩ (Texture.new 20 20) WHITE (by decide)
  refine ⟨?_, h.2⟩
  obtain ⟨t, ht⟩ := h.1
  rw [ht]
  rfl

/-! ## Claim C6 -/

/-- C6: whenever both transformed, truncated endpoint pixels lie strictly
inside the frame buffer (whose grids satisfy the size invariant),
`draw_line` leaves the current color at both endpoint pixels. -/
theorem C6_line_endpoints (T : Transform) (c : Pixel) (tex : Texture)
    (q1 q2 : Point)
    (hlen : tex.pixels.length = tex.w * tex.h)
    (h1x0 : 0 ≤ (lineArgs T q1 q2).p1x)
    (h1xw : (lineArgs T q1 q2).p1x < (tex.w : ℤ))
    (h1y0 : 0 ≤ (lineArgs T q1 q2).p1y)
    (h1yh : (lineArgs T q1 q2).p1y < (tex.h : ℤ))
    (h2x0 : 0 ≤ (lineArgs T q1 q2).p2x)
    (h2xw : (lineArgs T q1 q2).p2x < (tex.w : ℤ))
    (h2y0 : 0 ≤ (lineArgs T q1 q2).p2y)
    (h2yh : (lineArgs T q1 q2).p2y < (tex.h : ℤ)) :
    colorAt (draw_line T c tex q1 q2) (lineArgs T q1 q2).p1x
        (lineArgs T q1 q2).p1y = c ∧
      colorAt (draw_line T c tex q1 q2) (lineArgs T q1 q2).p2x
        (lineArgs T q1 q2).p2y = c := by
  obtain ⟨hadx, hady, hsx, hsy, hp2x, hp2y⟩ := lineArgs_spec T q1 q2
  set a := lineArgs T q1 q2 with ha
  have hfuel : max a.adx a.ady + 1 ≤ ((lineFuel a : ℕ) : ℤ) := by
    simp only [lineFuel]
    push_cast
    rcases max_choice a.adx a.ady with h | h <;> rw [h] <;> omega
  obtain ⟨t, ht⟩ := lineLoop_run a.adx a.ady a.xStep a.yStep a.p1x a.p1y
    a.p2x a.p2y c tex hadx hady hsx hsy hp2x hp2y (lineFuel a) hfuel
  have hdl : draw_line T c tex q1 q2 = t :=
    draw_line_eq_of_some T c tex q1 q2 t _ _ (by rw [← ha]; exact ht)
  rw [hdl]
  constructor
  · exact lineLoop_start_painted a.adx a.ady a.xStep a.yStep a.p2x a.p2y c
      hadx hady _ _ _ _ _ _ _ ht h1x0 h1xw h1y0 h1yh hlen
  · obtain ⟨tex', h1, hw', hh', hl'⟩ :=
      lineLoop_last _ _ _ _ _ _ _ _ _ _ _ _ _ _ _ ht
    rw [h1]
    apply colorAt_set_pixel_self tex' a.p2x a.p2y Depth.posInf c h2x0 ?_
      h2y0 ?_ ?_
    · rw [hw']; exact h2xw
    · rw [hh']; exact h2yh
    · rw [hl', hw', hh']; exact hlen

set_option maxRecDepth 8000 in
/-- Witness for C6 on the literal Bresenham scenario with draw color
`(1,2,3)`. -/
theorem C6_line_endpoints_witness :
    colorAt (draw_line Transform.identity (1, 2, 3) (Texture.new 20 20)
        ⟨0, 0, 0⟩ ⟨5, 3, 0⟩) 0 0 = (1, 2, 3) ∧
      colorAt (draw_line Transform.identity (1, 2, 3) (Texture.new 20 20)
        ⟨0, 0, 0⟩ ⟨5, 3, 0⟩) 5 3 = (1, 2, 3) := by
  have h := C6_line_endpoints Transform.identity (1, 2, 3)
    (Texture.new 20 20) ⟨0, 0, 0⟩ ⟨5, 3, 0⟩ (by decide)
    (by decide) (by decide) (by decide) (by decide) (by decide) (by decide)
    (by decide) (by decide)
  have e1 : (lineArgs Transform.identity ⟨0, 0, 0⟩ ⟨5, 3, 0⟩).p1x = 0 := by
    decide
  have e2 : (lineArgs Transform.identity ⟨0, 0, 0⟩ ⟨5, 3, 0⟩).p1y = 0 := by
    decide
  have e3 : (lineArgs Transform.identity ⟨0, 0, 0⟩ ⟨5, 3, 0⟩).p2x = 5 := by
    decide
  have e4 : (lineArgs Transform.identity ⟨0, 0, 0⟩ ⟨5, 3, 0⟩).p2y = 3 := by
    decide
  rw [e1, e2, e3, e4] at h
  exact h

/-! ## Claim C7 -/

/-- C7 counterexample: in the literal Bresenham scenario the pixel
`(0,0)` is written by `draw_line`, and the depth stored there is
`f64::INFINITY` (positive infinity, src/renderer.rs:103), which is not
the claimed negative infinity. -/
theorem C7_line_depth_counterexample :
    (draw_line Transform.identity WHITE (Texture.new 20 20)
        ⟨0, 0, 0⟩ ⟨5, 3, 0⟩).depths.getD 0 Depth.negInf = Depth.posInf ∧
      Depth.posInf ≠ Depth.negInf := by
  decide

/-- C7 (amended): every depth cell `draw_line` changes is set to
positive infinity (`f64::INFINITY`), the nearest possible value under the
buffer's convention, not negative infinity. -/
theorem C7_line_depth_posinf (T : Transform) (c : Pixel) (tex : Texture)
    (q1 q2 : Point) (i : ℕ) :
    (draw_line T c tex q1 q2).depths.getD i Depth.negInf
        = tex.depths.getD i Depth.negInf ∨
      (draw_line T c tex q1 q2).depths.getD i Depth.negInf
        = Depth.posInf := by
  rcases h : lineLoop (lineArgs T q1 q2).adx (lineArgs T q1 q2).ady
      (lineArgs T q1 q2).xStep (lineArgs T q1 q2).yStep
      (lineArgs T q1 q2).p2x (lineArgs T q1 q2).p2y c
      (lineFuel (lineArgs T q1 q2)) (lineArgs T q1 q2).p1x
      (lineArgs T q1 q2).p1y 0 tex with _ | ⟨t, xf, yf⟩
  · rw [draw_line_eq_of_none T c tex q1 q2 h]
    left; rfl
  · rw [draw_line_eq_of_some T c tex q1 q2 t xf yf h]
    exact lineLoop_depths_or _ _ _ _ _ _ _ _ _ _ _ _ _ _ _ h i

/-! ## Claim C2 -/

/-- C2: on a cleared 20×20 buffer with the identity transform,
`draw_line((0,0,0), (5,3,0))` paints the current color (white, the
renderer default) at exactly `(0,0),(1,1),(2,1),(3,2),(4,2),(5,3)` and
leaves every other cell of the color grid at the background color. -/
theorem C2_bresenham_literal : ∀ x : ℕ, x < 20 → ∀ y : ℕ, y < 20 →
    colorAt (draw_line Transform.identity WHITE (Texture.new 20 20)
        ⟨0, 0, 0⟩ ⟨5, 3, 0⟩) (x : ℤ) (y : ℤ)
      = if (x = 0 ∧ y = 0) ∨ (x = 1 ∧ y = 1) ∨ (x = 2 ∧ y = 1)
            ∨ (x = 3 ∧ y = 2) ∨ (x = 4 ∧ y = 2) ∨ (x = 5 ∧ y = 3)
        then WHITE else BLACK := by
  decide

/-- Witness for C2 at the pixel `(1, 1)`. -/
theorem C2_bresenham_literal_witness :
    colorAt (draw_line Transform.identity WHITE (Texture.new 20 20)
        ⟨0, 0, 0⟩ ⟨5, 3, 0⟩) 1 1 = WHITE := by
  have h := C2_bresenham_literal 1 (by decide) 1 (by decide)
  simpa using h

/-! ## Claim C10 -/

/-- C10: whatever color was last set via `set_color`, `fill_triangle`
only ever writes white into the color grid (it overrides the draw color
with `pixel::WHITE`, src/renderer.rs:144), and on return the renderer's
draw color field is restored to the value it had before the call
(src/renderer.rs:143,171). -/
theorem C10_fill_color_white_scoped (r : RendererState) (c : Pixel)
    (t : Triangle) :
    (fill_triangle (set_color r c) t).color = c ∧
      ∀ i : ℕ,
        (fill_triangle (set_color r c) t).tex.pixels.getD i BLACK
            = r.tex.pixels.getD i BLACK ∨
          (fill_triangle (set_color r c) t).tex.pixels.getD i BLACK
            = WHITE := by
  by_cases hcull : 0 ≤ dotP (triApply t (set_color r c).transform).normal
      ((t.p1 + t.p2 + t.p3) * (1 / 3 : ℚ))
  · rw [fill_triangle_culled (set_color r c) t hcull]
    exact ⟨rfl, fun i => Or.inl rfl⟩
  · simp only [fill_triangle, if_neg hcull]
    refine ⟨rfl, ?_⟩
    intro i
    split_ifs with h1 h2
    · exact fill_top_flat_pixels_or _ WHITE _ i
    · exact fill_bottom_flat_pixels_or _ WHITE _ i
    · rcases fill_top_flat_pixels_or
          (fill_bottom_flat_triangle (set_color r c).tex WHITE _) WHITE _ i
        with h | h
      · rw [h]
        exact fill_bottom_flat_pixels_or _ WHITE _ i
      · exact Or.inr h

end Rusterize
